import Mathlib

/-!
Verification of the hash-chain matchfinder of `src/xpack/lib/hc_matchfinder.h`.

The input buffer is embedded as a total function `Nat → Nat`; the bytes the
C code actually reads all lie inside the buffer (the `max_len < 5` and
`count + 5 <= end_pos - cur_pos` lookahead guards ensure this), so values past
the end never influence the results under the documented caller contract.
Buffer cells are u8 values; theorems that need injectivity of the little-endian
multi-byte loads take the hypothesis that every cell is below 256.

Positions are `ptrdiff_t` values stored into u32 tables; the spec makes it a
caller precondition that the maximum buffer length fits the position width
(section 4.1), so positions are embedded as plain `Nat`.
-/

/-- Pointwise update of a table embedded as a function, modelling `t[i] = v`. -/
def upd (t : Nat → Nat) (i v : Nat) : Nat → Nat :=
  fun j => if j = i then v else t j

/-- Modelled from the spec: `load_u32_unaligned` lives in `unaligned.h`, which is
not among the sources; per section 9 of the spec it reads a fixed-width
little-endian integer from an unaligned offset. -/
def load_u32_unaligned (buf : Nat → Nat) (p : Nat) : Nat :=
  buf p + 256 * buf (p + 1) + 65536 * buf (p + 2) + 16777216 * buf (p + 3)

/-- Modelled from the spec: `load_u24_unaligned` lives in `unaligned.h`, which is
not among the sources; it reads a 3-byte little-endian integer. -/
def load_u24_unaligned (buf : Nat → Nat) (p : Nat) : Nat :=
  buf p + 256 * buf (p + 1) + 65536 * buf (p + 2)

/-- Modelled from the spec: `loaded_u32_to_u24` (from `unaligned.h`, not among
the sources) keeps the low 3 bytes of a loaded little-endian u32. -/
def loaded_u32_to_u24 (v : Nat) : Nat :=
  v % 2 ^ 24

/-- Modelled from the spec: `lz_hash` lives in `lz_hash.h`, which is not among
the sources; per section 4.1 of the spec it maps a little-endian-interpreted
window to a bucket index via a fast multiplicative hash reduced to the
table's bit-width (here: multiply by a 32-bit constant, keep the top
`order` bits of the 32-bit product). -/
def lz_hash (seq : Nat) (order : Nat) : Nat :=
  ((seq * 0x1E35A7BD) % 2 ^ 32) >>> (32 - order)

/-- Modelled from the spec: the comparison loop of `lz_extend` (from
`lz_extend.h`, not among the sources), written with the remaining byte budget
`max_len - len` as a structural argument: while the budget is positive and the
bytes agree, advance `len`. -/
def lz_extend_go (buf : Nat → Nat) (strPos matchPos : Nat) : Nat → Nat → Nat
  | len, 0 => len
  | len, fuel + 1 =>
    if buf (strPos + len) = buf (matchPos + len) then
      lz_extend_go buf strPos matchPos (len + 1) fuel
    else
      len

/-- Modelled from the spec: `lz_extend` lives in `lz_extend.h`, which is not
among the sources; per section 4.2 step 8 of the spec it compares the candidate
and current windows forward from the point already known to match (`len`
bytes), up to `max_len`, returning the total equal run length. -/
def lz_extend (buf : Nat → Nat) (strPos matchPos len max_len : Nat) : Nat :=
  lz_extend_go buf strPos matchPos len (max_len - len)

/-- The bytes at `p` agree with the bytes at `m` for `L` positions. -/
def matchAt (buf : Nat → Nat) (p m L : Nat) : Prop :=
  ∀ j, j < L → buf (p + j) = buf (m + j)

def HC_MATCHFINDER_HASH3_ORDER : Nat := 15
def HC_MATCHFINDER_HASH4_ORDER : Nat := 16

/-- The matchfinder state (`struct hc_matchfinder`): the length-3 hash table,
the heads of the length-4 hash chains, and the chain links.  The tables hold
u32 values; per the spec's section 4.1 precondition every stored position fits
that width, so entries are embedded as `Nat`. -/
structure hc_matchfinder where
  hash3_tab : Nat → Nat
  hash4_tab : Nat → Nat
  next_tab : Nat → Nat

/-- `hc_matchfinder_init`: `memset(mf, 0, sizeof(*mf))`.  `next_tab` is a
flexible array member of `struct hc_matchfinder`, so `sizeof(*mf)` covers only
the two hash tables: the chain-link table is left untouched. -/
def hc_matchfinder_init (mf : hc_matchfinder) : hc_matchfinder :=
  { hash3_tab := fun _ => 0
    hash4_tab := fun _ => 0
    next_tab := mf.next_tab }

/-- One insertion of position `pos`, together with the computation of the hash
codes for `pos + 1`: the body of the `do` loop of
`hc_matchfinder_skip_positions` (lines 350-357), which performs exactly the
stores of lines 195-208 of `hc_matchfinder_longest_match`.  The state triple is
`(mf, next_hashes[0], next_hashes[1])`. -/
def skipStep (buf : Nat → Nat) (s : hc_matchfinder × Nat × Nat) (pos : Nat) :
    hc_matchfinder × Nat × Nat :=
  let mf := s.1
  let hash3 := s.2.1
  let hash4 := s.2.2
  let mf' : hc_matchfinder :=
    { hash3_tab := upd mf.hash3_tab hash3 pos
      hash4_tab := upd mf.hash4_tab hash4 pos
      next_tab := upd mf.next_tab pos (mf.hash4_tab hash4) }
  let next_seq4 := load_u32_unaligned buf (pos + 1)
  let next_seq3 := loaded_u32_to_u24 next_seq4
  (mf', lz_hash next_seq3 HC_MATCHFINDER_HASH3_ORDER,
    lz_hash next_seq4 HC_MATCHFINDER_HASH4_ORDER)

/-- The initial value of `depth_remaining`.  `depth_remaining` is a u32 counter
tested with `!--depth_remaining`, so a call with `max_search_depth == 0` wraps
around on the first decrement and behaves exactly like a depth of `2 ^ 32`. -/
def depthInit (max_search_depth : Nat) : Nat :=
  if max_search_depth = 0 then 2 ^ 32 else max_search_depth

/-- The first inner loop of `hc_matchfinder_longest_match` (lines 234-245):
walk the chain until a node whose first 4 bytes equal `seq4` is found,
returning it with the remaining depth, or `none` when the chain or the depth
runs out (`goto out`). -/
def find4 (buf : Nat → Nat) (nt : Nat → Nat) (seq4 : Nat) :
    Nat → Nat → Option (Nat × Nat)
  | node, 0 =>
    if load_u32_unaligned buf node = seq4 then some (node, 0) else none
  | node, depth + 1 =>
    if load_u32_unaligned buf node = seq4 then
      some (node, depth + 1)
    else
      let node' := nt node
      if node' = 0 ∨ depth = 0 then
        none
      else
        find4 buf nt seq4 node' depth

/-- The second loop of `hc_matchfinder_longest_match` (lines 262-305): with a
best match of length `best_len ≥ 4` at `best_pos` in hand, keep walking the
chain; candidates first pass the cheap filter comparing the 4 bytes ending at
the byte past `best_len` and the first 4 bytes (`UNALIGNED_ACCESS_IS_FAST`
variant), then are extended from length 4; strictly longer matches replace the
best; stop at `nice_len`, end of chain, or depth exhaustion. -/
def improve (buf : Nat → Nat) (nt : Nat → Nat) (p max_len nice_len : Nat) :
    Nat → Nat → Nat → Nat → Nat × Nat
  | best_len, best_pos, node, 0 =>
    if load_u32_unaligned buf (node + best_len - 3) =
          load_u32_unaligned buf (p + best_len - 3) ∧
        load_u32_unaligned buf node = load_u32_unaligned buf p then
      let len := lz_extend buf p node 4 max_len
      if best_len < len then (len, node) else (best_len, best_pos)
    else
      (best_len, best_pos)
  | best_len, best_pos, node, depth + 1 =>
    if load_u32_unaligned buf (node + best_len - 3) =
          load_u32_unaligned buf (p + best_len - 3) ∧
        load_u32_unaligned buf node = load_u32_unaligned buf p then
      let len := lz_extend buf p node 4 max_len
      if best_len < len then
        if nice_len ≤ len then
          (len, node)
        else
          let node' := nt node
          if node' = 0 ∨ depth = 0 then
            (len, node)
          else
            improve buf nt p max_len nice_len len node node' depth
      else
        let node' := nt node
        if node' = 0 ∨ depth = 0 then
          (best_len, best_pos)
        else
          improve buf nt p max_len nice_len best_len best_pos node' depth
    else
      let node' := nt node
      if node' = 0 ∨ depth = 0 then
        (best_len, best_pos)
      else
        improve buf nt p max_len nice_len best_len best_pos node' depth

/-- The result of `hc_matchfinder_longest_match`: the returned length, the
position `best_matchptr - in_begin` of the best match, and the updated
matchfinder state and precomputed hash codes. -/
structure LMResult where
  len : Nat
  matchPos : Nat
  mf : hc_matchfinder
  nh0 : Nat
  nh1 : Nat

/-- `hc_matchfinder_longest_match` (lines 163-309).  `best_matchptr` starts at
`in_next` itself; when `max_len < 5` nothing is read or written.  Otherwise the
current position is inserted (the stores of lines 195-208, shared with the
skip loop as `skipStep`), a single length-3 candidate is tried when
`best_len < 3`, the chain is walked for a first length-4 match when
`best_len < 4`, and then extended via the second loop. -/
def hc_matchfinder_longest_match (buf : Nat → Nat) (mf : hc_matchfinder)
    (cur_pos best_len max_len nice_len max_search_depth nh0 nh1 : Nat) :
    LMResult :=
  if max_len < 5 then
    ⟨best_len, cur_pos, mf, nh0, nh1⟩
  else
    let cur_node3 := mf.hash3_tab nh0
    let cur_node4 := mf.hash4_tab nh1
    let s := skipStep buf (mf, nh0, nh1) cur_pos
    let mf' := s.1
    let nh0' := s.2.1
    let nh1' := s.2.2
    let depth := depthInit max_search_depth
    if best_len < 4 then
      if cur_node3 = 0 then
        ⟨best_len, cur_pos, mf', nh0', nh1'⟩
      else
        let seq4 := load_u32_unaligned buf cur_pos
        let first3 :=
          if best_len < 3 ∧ load_u24_unaligned buf cur_node3 = loaded_u32_to_u24 seq4 then
            (3, cur_node3)
          else
            (best_len, cur_pos)
        if cur_node4 = 0 then
          ⟨first3.1, first3.2, mf', nh0', nh1'⟩
        else
          match find4 buf mf'.next_tab seq4 cur_node4 depth with
          | none => ⟨first3.1, first3.2, mf', nh0', nh1'⟩
          | some (node, depth') =>
            let len4 := lz_extend buf cur_pos node 4 max_len
            if nice_len ≤ len4 then
              ⟨len4, node, mf', nh0', nh1'⟩
            else
              let node' := mf'.next_tab node
              if node' = 0 ∨ depth' - 1 = 0 then
                ⟨len4, node, mf', nh0', nh1'⟩
              else
                let r := improve buf mf'.next_tab cur_pos max_len nice_len
                  len4 node node' (depth' - 1)
                ⟨r.1, r.2, mf', nh0', nh1'⟩
    else
      if cur_node4 = 0 ∨ nice_len ≤ best_len then
        ⟨best_len, cur_pos, mf', nh0', nh1'⟩
      else
        let r := improve buf mf'.next_tab cur_pos max_len nice_len
          best_len cur_pos cur_node4 depth
        ⟨r.1, r.2, mf', nh0', nh1'⟩

/-- The offset stored through `offset_ret`: `in_next - best_matchptr` (line
307).  Candidate positions produced by the search never exceed `cur_pos`
whenever the table entries hold earlier positions, so the `Nat` subtraction
coincides with the pointer difference there. -/
def hc_matchfinder_offset (cur_pos : Nat) (r : LMResult) : Nat :=
  cur_pos - r.matchPos

/-- The `do` loop of `hc_matchfinder_skip_positions`: insert `n` consecutive
positions starting at `pos`, stepping the precomputed hashes forward. -/
def skipLoop (buf : Nat → Nat) (s : hc_matchfinder × Nat × Nat) (pos n : Nat) :
    hc_matchfinder × Nat × Nat :=
  match n with
  | 0 => s
  | n + 1 => skipLoop buf (skipStep buf s pos) (pos + 1) n

/-- `hc_matchfinder_skip_positions` (lines 332-368).  When the lookahead guard
`count + 5 <= end_pos - cur_pos` fails, the whole range is skipped without any
table update.  When it holds, the `do`-`while` loop inserts the `count`
positions; with `count == 0` the loop's exit test `in_next != stop_ptr` can
never succeed after the first mandatory iteration, so the call never
terminates, which is modelled as `none`. -/
def hc_matchfinder_skip_positions (buf : Nat → Nat) (mf : hc_matchfinder)
    (cur_pos end_pos count nh0 nh1 : Nat) :
    Option (hc_matchfinder × Nat × Nat) :=
  if count + 5 ≤ end_pos - cur_pos then
    if count = 0 then
      none
    else
      some (skipLoop buf (mf, nh0, nh1) cur_pos count)
  else
    some (mf, nh0, nh1)

/-- Individual single-position insertion as performed by Search's step 3,
following the spec's words for the refinement claim: a Search call at `pos`
with a `max_len` correctly clamped to the remaining buffer length updates the
tables exactly when at least 5 bytes of lookahead remain (section 4.2 step 1),
and the update it then performs is `skipStep`. -/
def searchInsert (buf : Nat → Nat) (end_pos : Nat)
    (s : hc_matchfinder × Nat × Nat) (pos : Nat) : hc_matchfinder × Nat × Nat :=
  if end_pos - pos < 5 then s else skipStep buf s pos

/-- Perform `n` individual single-position insertions at `pos ..= pos + n - 1`,
each guarded by its own lookahead rule, per the spec's description of
repeated single-step insertion. -/
def insertRun (buf : Nat → Nat) (end_pos : Nat)
    (s : hc_matchfinder × Nat × Nat) : Nat → Nat → hc_matchfinder × Nat × Nat
  | _, 0 => s
  | pos, n + 1 => insertRun buf end_pos (searchInsert buf end_pos s pos) (pos + 1) n

/-- Parameters of one subsequent Search call, used to compare the two
insertion histories observably. -/
structure SearchCall where
  pos : Nat
  best_len : Nat
  max_len : Nat
  nice_len : Nat
  max_depth : Nat

/-- Run a sequence of Search calls, threading the matchfinder state and the
precomputed hashes, and collect the observable (length, offset) outputs. -/
def runSearches (buf : Nat → Nat) :
    hc_matchfinder × Nat × Nat → List SearchCall → List (Nat × Nat)
  | _, [] => []
  | s, c :: cs =>
    let r := hc_matchfinder_longest_match buf s.1 c.pos c.best_len c.max_len
      c.nice_len c.max_depth s.2.1 s.2.2
    (r.len, hc_matchfinder_offset c.pos r) :: runSearches buf (r.mf, r.nh0, r.nh1) cs

/-- Membership in the walk that the search performs over the chain-link table:
`InChain nt a b` holds when `b` is reached from `a` by following `nt`, every
step leaving a nonzero node. -/
inductive InChain (nt : Nat → Nat) : Nat → Nat → Prop
  | refl (a : Nat) : InChain nt a a
  | tail (a b : Nat) : InChain nt a b → b ≠ 0 → InChain nt a (nt b)

/-- A well-formed chain: from a nonzero node, the link leads strictly
downwards, and the sentinel 0 ends the walk. -/
inductive GoodChain (nt : Nat → Nat) : Nat → Prop
  | zero : GoodChain nt 0
  | cons (n : Nat) : n ≠ 0 → nt n < n → GoodChain nt (nt n) → GoodChain nt n

/-- The list of positions visited when walking a chain from `node` with the
given fuel, stopping at the sentinel 0. -/
def chainFrom (nt : Nat → Nat) : Nat → Nat → List Nat
  | 0, _ => []
  | fuel + 1, node =>
    if node = 0 then [] else node :: chainFrom nt fuel (nt node)

/-- One walking step along the chain-link table, staying at the sentinel. -/
def chainStep (nt : Nat → Nat) (n : Nat) : Nat :=
  if n = 0 then 0 else nt n

/-- The causality and chain-order invariant at bound `B` (the next position
the caller may present): every bucket entry is the sentinel or an already
inserted position below `B`, and every bucket's chain is well formed. -/
def HCInv (mf : hc_matchfinder) (B : Nat) : Prop :=
  (∀ h, mf.hash3_tab h = 0 ∨ mf.hash3_tab h < B) ∧
  (∀ h, mf.hash4_tab h = 0 ∨ mf.hash4_tab h < B) ∧
  (∀ h, GoodChain mf.next_tab (mf.hash4_tab h))

/-- The state after a Search call, as threaded by a driving forward scan. -/
def lmNext (buf : Nat → Nat) (s : hc_matchfinder × Nat × Nat)
    (q bl ml nl md : Nat) : hc_matchfinder × Nat × Nat :=
  let r := hc_matchfinder_longest_match buf s.1 q bl ml nl md s.2.1 s.2.2
  (r.mf, r.nh0, r.nh1)

/-- States reachable from a freshly reset Match Index by Search and
Skip-Forward-Insert calls at strictly increasing positions; the second index
is the least position the next call may use. -/
inductive Reach (buf : Nat → Nat) : hc_matchfinder × Nat × Nat → Nat → Prop
  | init (t : hc_matchfinder) (nh0 nh1 : Nat) :
      Reach buf (hc_matchfinder_init t, nh0, nh1) 0
  | search (s : hc_matchfinder × Nat × Nat) (B q bl ml nl md : Nat) :
      Reach buf s B → B ≤ q → Reach buf (lmNext buf s q bl ml nl md) (q + 1)
  | skip (s : hc_matchfinder × Nat × Nat) (B q end_pos c : Nat)
      (s' : hc_matchfinder × Nat × Nat) :
      Reach buf s B → B ≤ q → 1 ≤ c →
      hc_matchfinder_skip_positions buf s.1 q end_pos c s.2.1 s.2.2 = some s' →
      Reach buf s' (q + c)

/-- Membership of a position in the chain hanging off a bucket head. -/
def chainMem (nt : Nat → Nat) (head m : Nat) : Prop :=
  head ≠ 0 ∧ InChain nt head m

theorem upd_self (t : Nat → Nat) (i v : Nat) : upd t i v i = v := by
  simp [upd]

theorem upd_other (t : Nat → Nat) (i v j : Nat) (h : j ≠ i) : upd t i v j = t j := by
  simp [upd, h]

theorem lz_extend_go_ge (buf : Nat → Nat) (a b : Nat) :
    ∀ fuel len, len ≤ lz_extend_go buf a b len fuel := by
  intro fuel
  induction fuel with
  | zero => intro len; simp [lz_extend_go]
  | succ n ih =>
    intro len
    simp only [lz_extend_go]
    split
    · exact le_trans (Nat.le_succ len) (ih (len + 1))
    · exact le_refl len

theorem lz_extend_go_le (buf : Nat → Nat) (a b : Nat) :
    ∀ fuel len, lz_extend_go buf a b len fuel ≤ len + fuel := by
  intro fuel
  induction fuel with
  | zero => intro len; simp [lz_extend_go]
  | succ n ih =>
    intro len
    simp only [lz_extend_go]
    split
    · exact le_trans (ih (len + 1)) (by omega)
    · omega

theorem lz_extend_go_match (buf : Nat → Nat) (a b : Nat) :
    ∀ fuel len, (∀ j, j < len → buf (a + j) = buf (b + j)) →
      ∀ j, j < lz_extend_go buf a b len fuel → buf (a + j) = buf (b + j) := by
  intro fuel
  induction fuel with
  | zero => intro len h; simpa [lz_extend_go] using h
  | succ n ih =>
    intro len h
    simp only [lz_extend_go]
    split
    · refine ih (len + 1) ?_
      intro j hj
      rcases Nat.lt_succ_iff_lt_or_eq.mp hj with hlt | heq
      · exact h j hlt
      · subst heq; assumption
    · exact h

theorem lz_extend_ge (buf : Nat → Nat) (a b len ml : Nat) :
    len ≤ lz_extend buf a b len ml :=
  lz_extend_go_ge buf a b (ml - len) len

theorem lz_extend_le (buf : Nat → Nat) (a b len ml : Nat) (h : len ≤ ml) :
    lz_extend buf a b len ml ≤ ml := by
  have := lz_extend_go_le buf a b (ml - len) len
  unfold lz_extend
  omega

theorem lz_extend_matchAt (buf : Nat → Nat) (a b len ml : Nat)
    (h : matchAt buf a b len) : matchAt buf a b (lz_extend buf a b len ml) :=
  lz_extend_go_match buf a b (ml - len) len h

theorem load_u32_eq_bytes (buf : Nat → Nat) (hb : ∀ i, buf i < 256) (a b : Nat)
    (h : load_u32_unaligned buf a = load_u32_unaligned buf b) :
    matchAt buf a b 4 := by
  intro j hj
  have h0a := hb a
  have h1a := hb (a + 1)
  have h2a := hb (a + 2)
  have h3a := hb (a + 3)
  have h0b := hb b
  have h1b := hb (b + 1)
  have h2b := hb (b + 2)
  have h3b := hb (b + 3)
  simp only [load_u32_unaligned] at h
  interval_cases j <;> (try simp only [Nat.add_zero]) <;> omega

theorem load_u24_eq_bytes (buf : Nat → Nat) (hb : ∀ i, buf i < 256) (a b : Nat)
    (h : load_u24_unaligned buf a = load_u24_unaligned buf b) :
    matchAt buf a b 3 := by
  intro j hj
  have h0a := hb a
  have h1a := hb (a + 1)
  have h2a := hb (a + 2)
  have h0b := hb b
  have h1b := hb (b + 1)
  have h2b := hb (b + 2)
  simp only [load_u24_unaligned] at h
  interval_cases j <;> (try simp only [Nat.add_zero]) <;> omega

theorem u24_of_u32 (buf : Nat → Nat) (hb : ∀ i, buf i < 256) (p : Nat) :
    loaded_u32_to_u24 (load_u32_unaligned buf p) = load_u24_unaligned buf p := by
  have h0 := hb p
  have h1 := hb (p + 1)
  have h2 := hb (p + 2)
  have h3 := hb (p + 3)
  simp only [loaded_u32_to_u24, load_u32_unaligned, load_u24_unaligned]
  have hlt : buf p + 256 * buf (p + 1) + 65536 * buf (p + 2) < 2 ^ 24 := by omega
  have : buf p + 256 * buf (p + 1) + 65536 * buf (p + 2) +
      16777216 * buf (p + 3) =
      buf p + 256 * buf (p + 1) + 65536 * buf (p + 2) +
      (buf (p + 3)) * 2 ^ 24 := by ring
  rw [this, Nat.add_mul_mod_self_right, Nat.mod_eq_of_lt hlt]

theorem inChain_trans (nt : Nat → Nat) (a b c : Nat)
    (h1 : InChain nt a b) (h2 : InChain nt b c) : InChain nt a c := by
  induction h2 with
  | refl => exact h1
  | tail y hy hne ih => exact InChain.tail a y ih hne

theorem goodChain_inv (nt : Nat → Nat) (n : Nat) (h : GoodChain nt n)
    (hn : n ≠ 0) : nt n < n ∧ GoodChain nt (nt n) := by
  cases h with
  | zero => exact absurd rfl hn
  | cons n _ h1 h2 => exact ⟨h1, h2⟩

theorem goodChain_inChain (nt : Nat → Nat) (a b : Nat) (hg : GoodChain nt a)
    (h : InChain nt a b) : GoodChain nt b ∧ b ≤ a := by
  induction h with
  | refl => exact ⟨hg, le_refl a⟩
  | tail y hy hne ih =>
    obtain ⟨hgy, hle⟩ := ih
    obtain ⟨hlt, hg'⟩ := goodChain_inv nt y hgy hne
    exact ⟨hg', by omega⟩

theorem goodChain_upd (nt : Nat → Nat) (q v : Nat) :
    ∀ a, GoodChain nt a → a < q → GoodChain (upd nt q v) a := by
  intro a
  induction a using Nat.strong_induction_on with
  | _ a ih =>
    intro hg ha
    rcases Nat.eq_zero_or_pos a with rfl | hpos
    · exact GoodChain.zero
    · have hne : a ≠ 0 := by omega
      obtain ⟨hlt, hg'⟩ := goodChain_inv nt a hg hne
      have hq : upd nt q v a = nt a := upd_other nt q v a (by omega)
      refine GoodChain.cons a hne ?_ ?_
      · rw [hq]; exact hlt
      · rw [hq]; exact ih (nt a) hlt hg' (by omega)

theorem skipStep_mf (buf : Nat → Nat) (s : hc_matchfinder × Nat × Nat) (pos : Nat) :
    (skipStep buf s pos).1 =
      ⟨upd s.1.hash3_tab s.2.1 pos, upd s.1.hash4_tab s.2.2 pos,
        upd s.1.next_tab pos (s.1.hash4_tab s.2.2)⟩ :=
  rfl

theorem find4_spec (buf nt : Nat → Nat) (seq4 : Nat) :
    ∀ depth node n d, node ≠ 0 →
      find4 buf nt seq4 node depth = some (n, d) →
      n ≠ 0 ∧ InChain nt node n ∧ load_u32_unaligned buf n = seq4 := by
  intro depth
  induction depth with
  | zero =>
    intro node n d hnode h
    by_cases hc : load_u32_unaligned buf node = seq4
    · simp only [find4, if_pos hc, Option.some.injEq, Prod.mk.injEq] at h
      obtain ⟨h1, _⟩ := h
      subst h1
      exact ⟨hnode, InChain.refl node, hc⟩
    · simp only [find4, if_neg hc] at h
      exact Option.noConfusion h
  | succ depth ih =>
    intro node n d hnode h
    by_cases hc : load_u32_unaligned buf node = seq4
    · simp only [find4, if_pos hc, Option.some.injEq, Prod.mk.injEq] at h
      obtain ⟨h1, _⟩ := h
      subst h1
      exact ⟨hnode, InChain.refl node, hc⟩
    · simp only [find4, if_neg hc] at h
      by_cases hg : nt node = 0 ∨ depth = 0
      · simp only [if_pos hg] at h
        exact Option.noConfusion h
      · simp only [if_neg hg] at h
        have hnn : nt node ≠ 0 := fun hh => hg (Or.inl hh)
        obtain ⟨h1, h2, h3⟩ := ih (nt node) n d hnn h
        refine ⟨h1, inChain_trans nt node (nt node) n ?_ h2, h3⟩
        exact InChain.tail node node (InChain.refl node) hnode

theorem improve_spec (buf nt : Nat → Nat) (p ml nl : Nat) (hml : 4 ≤ ml) :
    ∀ depth bl bp node r, node ≠ 0 →
      improve buf nt p ml nl bl bp node depth = r →
      r = (bl, bp) ∨
      (bl < r.1 ∧ r.1 ≤ ml ∧ r.2 ≠ 0 ∧ InChain nt node r.2 ∧
        load_u32_unaligned buf r.2 = load_u32_unaligned buf p ∧
        r.1 = lz_extend buf p r.2 4 ml) := by
  intro depth
  induction depth with
  | zero =>
    intro bl bp node r hnode hr
    by_cases hf : load_u32_unaligned buf (node + bl - 3) =
          load_u32_unaligned buf (p + bl - 3) ∧
        load_u32_unaligned buf node = load_u32_unaligned buf p
    · simp only [improve, if_pos hf] at hr
      by_cases hlen : bl < lz_extend buf p node 4 ml
      · simp only [if_pos hlen] at hr
        subst hr
        exact Or.inr ⟨hlen, lz_extend_le buf p node 4 ml hml, hnode,
          InChain.refl node, hf.2, rfl⟩
      · simp only [if_neg hlen] at hr
        exact Or.inl hr.symm
    · simp only [improve, if_neg hf] at hr
      exact Or.inl hr.symm
  | succ depth ih =>
    intro bl bp node r hnode hr
    by_cases hf : load_u32_unaligned buf (node + bl - 3) =
          load_u32_unaligned buf (p + bl - 3) ∧
        load_u32_unaligned buf node = load_u32_unaligned buf p
    · simp only [improve, if_pos hf] at hr
      by_cases hlen : bl < lz_extend buf p node 4 ml
      · simp only [if_pos hlen] at hr
        by_cases hnice : nl ≤ lz_extend buf p node 4 ml
        · simp only [if_pos hnice] at hr
          subst hr
          exact Or.inr ⟨hlen, lz_extend_le buf p node 4 ml hml, hnode,
            InChain.refl node, hf.2, rfl⟩
        · simp only [if_neg hnice] at hr
          by_cases hg : nt node = 0 ∨ depth = 0
          · simp only [if_pos hg] at hr
            subst hr
            exact Or.inr ⟨hlen, lz_extend_le buf p node 4 ml hml, hnode,
              InChain.refl node, hf.2, rfl⟩
          · simp only [if_neg hg] at hr
            have hnn : nt node ≠ 0 := fun hh => hg (Or.inl hh)
            have hstep : InChain nt node (nt node) :=
              InChain.tail node node (InChain.refl node) hnode
            rcases ih (lz_extend buf p node 4 ml) node (nt node) r hnn hr with
              heq | ⟨h1, h2, h3, h4, h5, h6⟩
            · subst heq
              exact Or.inr ⟨hlen, lz_extend_le buf p node 4 ml hml, hnode,
                InChain.refl node, hf.2, rfl⟩
            · exact Or.inr ⟨by omega, h2, h3,
                inChain_trans nt node (nt node) r.2 hstep h4, h5, h6⟩
      · simp only [if_neg hlen] at hr
        by_cases hg : nt node = 0 ∨ depth = 0
        · simp only [if_pos hg] at hr
          exact Or.inl hr.symm
        · simp only [if_neg hg] at hr
          have hnn : nt node ≠ 0 := fun hh => hg (Or.inl hh)
          have hstep : InChain nt node (nt node) :=
            InChain.tail node node (InChain.refl node) hnode
          rcases ih bl bp (nt node) r hnn hr with heq | ⟨h1, h2, h3, h4, h5, h6⟩
          · exact Or.inl heq
          · exact Or.inr ⟨h1, h2, h3,
              inChain_trans nt node (nt node) r.2 hstep h4, h5, h6⟩
    · simp only [improve, if_neg hf] at hr
      by_cases hg : nt node = 0 ∨ depth = 0
      · simp only [if_pos hg] at hr
        exact Or.inl hr.symm
      · simp only [if_neg hg] at hr
        have hnn : nt node ≠ 0 := fun hh => hg (Or.inl hh)
        have hstep : InChain nt node (nt node) :=
          InChain.tail node node (InChain.refl node) hnode
        rcases ih bl bp (nt node) r hnn hr with heq | ⟨h1, h2, h3, h4, h5, h6⟩
        · exact Or.inl heq
        · exact Or.inr ⟨h1, h2, h3,
            inChain_trans nt node (nt node) r.2 hstep h4, h5, h6⟩

theorem lm_state (buf : Nat → Nat) (mf : hc_matchfinder)
    (p bl ml nl md nh0 nh1 : Nat) :
    ((hc_matchfinder_longest_match buf mf p bl ml nl md nh0 nh1).mf,
     (hc_matchfinder_longest_match buf mf p bl ml nl md nh0 nh1).nh0,
     (hc_matchfinder_longest_match buf mf p bl ml nl md nh0 nh1).nh1) =
      if ml < 5 then (mf, nh0, nh1) else skipStep buf (mf, nh0, nh1) p := by
  by_cases h5 : ml < 5
  · simp [hc_matchfinder_longest_match, h5]
  · simp only [hc_matchfinder_longest_match, if_neg h5, if_pos, if_neg]
    split <;> (try split) <;> (try split) <;> (try split) <;> (try split) <;>
      (try split) <;> rfl

theorem lm_spec (buf : Nat → Nat) (mf : hc_matchfinder)
    (p bl ml nl md nh0 nh1 : Nat) (r : LMResult)
    (hr : hc_matchfinder_longest_match buf mf p bl ml nl md nh0 nh1 = r) :
    (r.len = bl ∧ r.matchPos = p) ∨
    (bl < r.len ∧ r.len ≤ ml ∧ r.matchPos ≠ 0 ∧
      ((r.len = 3 ∧ r.matchPos = mf.hash3_tab nh0 ∧
        load_u24_unaligned buf r.matchPos =
          loaded_u32_to_u24 (load_u32_unaligned buf p)) ∨
       (4 ≤ r.len ∧ mf.hash4_tab nh1 ≠ 0 ∧
        InChain (upd mf.next_tab p (mf.hash4_tab nh1)) (mf.hash4_tab nh1)
          r.matchPos ∧
        load_u32_unaligned buf r.matchPos = load_u32_unaligned buf p ∧
        r.len = lz_extend buf p r.matchPos 4 ml))) := by
  by_cases h5 : ml < 5
  · simp only [hc_matchfinder_longest_match, if_pos h5] at hr
    subst hr
    dsimp only
    exact Or.inl ⟨rfl, rfl⟩
  · have hml4 : 4 ≤ ml := by omega
    simp only [hc_matchfinder_longest_match, if_neg h5, skipStep_mf] at hr
    by_cases hb4 : bl < 4
    · simp only [if_pos hb4] at hr
      by_cases h3z : mf.hash3_tab nh0 = 0
      · simp only [if_pos h3z] at hr
        subst hr
        dsimp only
        exact Or.inl ⟨rfl, rfl⟩
      · simp only [if_neg h3z] at hr
        by_cases h4z : mf.hash4_tab nh1 = 0
        · simp only [if_pos h4z] at hr
          by_cases h3m : bl < 3 ∧ load_u24_unaligned buf (mf.hash3_tab nh0) =
              loaded_u32_to_u24 (load_u32_unaligned buf p)
          · simp only [if_pos h3m] at hr
            subst hr
            dsimp only
            exact Or.inr ⟨by omega, by omega, h3z, Or.inl ⟨rfl, rfl, h3m.2⟩⟩
          · simp only [if_neg h3m] at hr
            subst hr
            dsimp only
            exact Or.inl ⟨rfl, rfl⟩
        · simp only [if_neg h4z] at hr
          rcases hfind : find4 buf (upd mf.next_tab p (mf.hash4_tab nh1))
              (load_u32_unaligned buf p) (mf.hash4_tab nh1) (depthInit md) with
            _ | ⟨node, depth'⟩
          · rw [hfind] at hr
            dsimp only at hr
            by_cases h3m : bl < 3 ∧ load_u24_unaligned buf (mf.hash3_tab nh0) =
                loaded_u32_to_u24 (load_u32_unaligned buf p)
            · simp only [if_pos h3m] at hr
              subst hr
              dsimp only
              exact Or.inr ⟨by omega, by omega, h3z, Or.inl ⟨rfl, rfl, h3m.2⟩⟩
            · simp only [if_neg h3m] at hr
              subst hr
              dsimp only
              exact Or.inl ⟨rfl, rfl⟩
          · rw [hfind] at hr
            dsimp only at hr
            obtain ⟨hnz, hchain, hseq⟩ := find4_spec buf
              (upd mf.next_tab p (mf.hash4_tab nh1)) (load_u32_unaligned buf p)
              (depthInit md) (mf.hash4_tab nh1) node depth' h4z hfind
            have hge4 : 4 ≤ lz_extend buf p node 4 ml :=
              lz_extend_ge buf p node 4 ml
            have hlem : lz_extend buf p node 4 ml ≤ ml :=
              lz_extend_le buf p node 4 ml hml4
            by_cases hnice : nl ≤ lz_extend buf p node 4 ml
            · simp only [if_pos hnice] at hr
              subst hr
              dsimp only
              exact Or.inr ⟨by omega, hlem, hnz,
                Or.inr ⟨hge4, h4z, hchain, hseq, rfl⟩⟩
            · simp only [if_neg hnice] at hr
              by_cases hg : upd mf.next_tab p (mf.hash4_tab nh1) node = 0 ∨
                  depth' - 1 = 0
              · simp only [if_pos hg] at hr
                subst hr
                dsimp only
                exact Or.inr ⟨by omega, hlem, hnz,
                  Or.inr ⟨hge4, h4z, hchain, hseq, rfl⟩⟩
              · simp only [if_neg hg] at hr
                have hnn : upd mf.next_tab p (mf.hash4_tab nh1) node ≠ 0 :=
                  fun hh => hg (Or.inl hh)
                have hstep : InChain (upd mf.next_tab p (mf.hash4_tab nh1))
                    (mf.hash4_tab nh1)
                    (upd mf.next_tab p (mf.hash4_tab nh1) node) :=
                  InChain.tail _ node hchain hnz
                rcases improve_spec buf (upd mf.next_tab p (mf.hash4_tab nh1))
                    p ml nl hml4 (depth' - 1) (lz_extend buf p node 4 ml) node
                    (upd mf.next_tab p (mf.hash4_tab nh1) node)
                    (improve buf (upd mf.next_tab p (mf.hash4_tab nh1)) p ml nl
                      (lz_extend buf p node 4 ml) node
                      (upd mf.next_tab p (mf.hash4_tab nh1) node) (depth' - 1))
                    hnn rfl with heq | ⟨i1, i2, i3, i4, i5, i6⟩
                · subst hr
                  rw [heq]
                  dsimp only
                  exact Or.inr ⟨by omega, hlem, hnz,
                    Or.inr ⟨hge4, h4z, hchain, hseq, rfl⟩⟩
                · subst hr
                  dsimp only
                  refine Or.inr ⟨by omega, i2, i3, Or.inr ⟨by omega, h4z,
                    inChain_trans _ (mf.hash4_tab nh1) _ _ hstep i4, i5, i6⟩⟩
    · simp only [if_neg hb4] at hr
      by_cases hout : mf.hash4_tab nh1 = 0 ∨ nl ≤ bl
      · simp only [if_pos hout] at hr
        subst hr
        dsimp only
        exact Or.inl ⟨rfl, rfl⟩
      · simp only [if_neg hout] at hr
        have h4z : mf.hash4_tab nh1 ≠ 0 := fun hh => hout (Or.inl hh)
        rcases improve_spec buf (upd mf.next_tab p (mf.hash4_tab nh1)) p ml nl
            hml4 (depthInit md) bl p (mf.hash4_tab nh1)
            (improve buf (upd mf.next_tab p (mf.hash4_tab nh1)) p ml nl bl p
              (mf.hash4_tab nh1) (depthInit md))
            h4z rfl with heq | ⟨i1, i2, i3, i4, i5, i6⟩
        · subst hr
          rw [heq]
          dsimp only
          exact Or.inl ⟨rfl, rfl⟩
        · subst hr
          dsimp only
          exact Or.inr ⟨i1, i2, i3, Or.inr ⟨by omega, h4z, i4, i5, i6⟩⟩

theorem hcInv_mono (mf : hc_matchfinder) (B B' : Nat) (h : HCInv mf B)
    (hBB : B ≤ B') : HCInv mf B' := by
  obtain ⟨h1, h2, h3⟩ := h
  refine ⟨fun i => ?_, fun i => ?_, h3⟩
  · rcases h1 i with hz | hlt
    · exact Or.inl hz
    · exact Or.inr (by omega)
  · rcases h2 i with hz | hlt
    · exact Or.inl hz
    · exact Or.inr (by omega)

theorem skipStep_inv (buf : Nat → Nat) (mf : hc_matchfinder) (i3 i4 q B : Nat)
    (h : HCInv mf B) (hBq : B ≤ q) :
    HCInv (skipStep buf (mf, i3, i4) q).1 (q + 1) := by
  obtain ⟨h1, h2, h3⟩ := h
  rw [skipStep_mf]
  refine ⟨fun i => ?_, fun i => ?_, fun i => ?_⟩
  · dsimp only
    by_cases hi : i = i3
    · subst hi
      rw [upd_self]
      omega
    · rw [upd_other _ _ _ _ hi]
      rcases h1 i with hz | hlt
      · exact Or.inl hz
      · exact Or.inr (by omega)
  · dsimp only
    by_cases hi : i = i4
    · subst hi
      rw [upd_self]
      omega
    · rw [upd_other _ _ _ _ hi]
      rcases h2 i with hz | hlt
      · exact Or.inl hz
      · exact Or.inr (by omega)
  · dsimp only
    by_cases hi : i = i4
    · subst hi
      rw [upd_self]
      rcases Nat.eq_zero_or_pos q with rfl | hq
      · exact GoodChain.zero
      · refine GoodChain.cons q (by omega) ?_ ?_
        · rw [upd_self]
          rcases h2 i with hz | hlt <;> omega
        · rw [upd_self]
          rcases h2 i with hz | hlt
          · rw [hz]
            exact GoodChain.zero
          · exact goodChain_upd mf.next_tab q (mf.hash4_tab i)
              (mf.hash4_tab i) (h3 i) (by omega)
    · rw [upd_other _ _ _ _ hi]
      rcases h2 i with hz | hlt
      · rw [hz]
        exact GoodChain.zero
      · exact goodChain_upd mf.next_tab q (mf.hash4_tab i4)
          (mf.hash4_tab i) (h3 i) (by omega)

theorem lmNext_eq (buf : Nat → Nat) (s : hc_matchfinder × Nat × Nat)
    (q bl ml nl md : Nat) :
    lmNext buf s q bl ml nl md = if ml < 5 then s else skipStep buf s q := by
  have h := lm_state buf s.1 q bl ml nl md s.2.1 s.2.2
  exact h

theorem skipLoop_inv (buf : Nat → Nat) :
    ∀ n (s : hc_matchfinder × Nat × Nat) pos, HCInv s.1 pos →
      HCInv (skipLoop buf s pos n).1 (pos + n) := by
  intro n
  induction n with
  | zero =>
    intro s pos h
    simpa [skipLoop] using h
  | succ n ih =>
    intro s pos h
    have h1 : HCInv (skipStep buf s pos).1 (pos + 1) :=
      skipStep_inv buf s.1 s.2.1 s.2.2 pos pos h (le_refl pos)
    have h2 := ih (skipStep buf s pos) (pos + 1) h1
    simp only [skipLoop]
    have hadd : pos + 1 + n = pos + (n + 1) := by omega
    rw [← hadd]
    exact h2

theorem skip_positions_inv (buf : Nat → Nat) (mf : hc_matchfinder)
    (B q end_pos c nh0 nh1 : Nat) (s' : hc_matchfinder × Nat × Nat)
    (hs : hc_matchfinder_skip_positions buf mf q end_pos c nh0 nh1 = some s')
    (h : HCInv mf B) (hBq : B ≤ q) : HCInv s'.1 (q + c) := by
  unfold hc_matchfinder_skip_positions at hs
  by_cases hg : c + 5 ≤ end_pos - q
  · rw [if_pos hg] at hs
    by_cases hc0 : c = 0
    · rw [if_pos hc0] at hs
      exact Option.noConfusion hs
    · rw [if_neg hc0] at hs
      cases hs
      exact skipLoop_inv buf c (mf, nh0, nh1) q (hcInv_mono mf B q h hBq)
  · rw [if_neg hg] at hs
    cases hs
    exact hcInv_mono mf B (q + c) h (by omega)

theorem reach_inv (buf : Nat → Nat) (s : hc_matchfinder × Nat × Nat) (B : Nat)
    (hr : Reach buf s B) : HCInv s.1 B := by
  induction hr with
  | init t nh0 nh1 =>
    exact ⟨fun i => Or.inl rfl, fun i => Or.inl rfl, fun i => GoodChain.zero⟩
  | search s B q bl ml nl md hR hBq ih =>
    rw [lmNext_eq]
    by_cases h5 : ml < 5
    · rw [if_pos h5]
      exact hcInv_mono s.1 B (q + 1) ih (by omega)
    · rw [if_neg h5]
      exact skipStep_inv buf s.1 s.2.1 s.2.2 q B ih hBq
  | skip s B q end_pos c s' hR hBq hc hskip ih =>
    exact skip_positions_inv buf s.1 B q end_pos c s.2.1 s.2.2 s' hskip ih hBq

theorem goodChain_chainFrom (nt : Nat → Nat) :
    ∀ fuel a, GoodChain nt a →
      List.Chain' (fun x y => y < x) (chainFrom nt fuel a) := by
  intro fuel
  induction fuel with
  | zero =>
    intro a hg
    simp [chainFrom]
  | succ n ih =>
    intro a hg
    simp only [chainFrom]
    by_cases ha : a = 0
    · simp [ha]
    · rw [if_neg ha]
      obtain ⟨hlt, hg'⟩ := goodChain_inv nt a hg ha
      refine List.chain'_cons'.mpr ⟨?_, ih (nt a) hg'⟩
      intro y hy
      cases n with
      | zero => simp [chainFrom] at hy
      | succ m =>
        simp only [chainFrom] at hy
        by_cases hz : nt a = 0
        · simp [hz] at hy
        · rw [if_neg hz] at hy
          simp only [List.head?_cons, Option.mem_some_iff] at hy
          omega
  
theorem goodChain_iter (nt : Nat → Nat) :
    ∀ k a, GoodChain nt a → a ≤ k → (chainStep nt)^[k] a = 0 := by
  intro k
  induction k with
  | zero =>
    intro a hg ha
    interval_cases a
    simp
  | succ n ih =>
    intro a hg ha
    rw [Function.iterate_succ_apply]
    by_cases haz : a = 0
    · subst haz
      have hstep : chainStep nt 0 = 0 := by simp [chainStep]
      rw [hstep]
      exact ih 0 GoodChain.zero (by omega)
    · obtain ⟨hlt, hg'⟩ := goodChain_inv nt a hg haz
      have hstep : chainStep nt a = nt a := by simp [chainStep, haz]
      rw [hstep]
      exact ih (nt a) hg' (by omega)

theorem lm_small (buf : Nat → Nat) (mf : hc_matchfinder)
    (p bl ml nl md nh0 nh1 : Nat) (h5 : ml < 5) :
    hc_matchfinder_longest_match buf mf p bl ml nl md nh0 nh1 =
      ⟨bl, p, mf, nh0, nh1⟩ := by
  simp [hc_matchfinder_longest_match, h5]

theorem skipLoop_eq_insertRun (buf : Nat → Nat) (end_pos : Nat) :
    ∀ n pos (s : hc_matchfinder × Nat × Nat),
      (∀ k, k < n → 5 ≤ end_pos - (pos + k)) →
      skipLoop buf s pos n = insertRun buf end_pos s pos n := by
  intro n
  induction n with
  | zero => intro pos s h; rfl
  | succ n ih =>
    intro pos s h
    simp only [skipLoop, insertRun, searchInsert]
    have h0 : ¬ end_pos - pos < 5 := by
      have := h 0 (by omega)
      omega
    rw [if_neg h0]
    refine ih (pos + 1) (skipStep buf s pos) (fun k hk => ?_)
    have := h (k + 1) (by omega)
    omega

theorem runSearches_small (buf : Nat → Nat) :
    ∀ qs : List SearchCall, (∀ c ∈ qs, c.max_len < 5) →
      ∀ sA sB, runSearches buf sA qs = runSearches buf sB qs := by
  intro qs
  induction qs with
  | nil => intro h sA sB; rfl
  | cons c cs ih =>
    intro h sA sB
    have h5 : c.max_len < 5 := h c (List.mem_cons_self c cs)
    simp only [runSearches]
    rw [lm_small buf sA.1 c.pos c.best_len c.max_len c.nice_len c.max_depth
      sA.2.1 sA.2.2 h5]
    rw [lm_small buf sB.1 c.pos c.best_len c.max_len c.nice_len c.max_depth
      sB.2.1 sB.2.2 h5]
    dsimp only
    exact congrArg _ (ih (fun d hd => h d (List.mem_cons_of_mem c hd)) _ _)

/-- An all-zero matchfinder state, used as a concrete starting point. -/
def mfZero : hc_matchfinder := ⟨fun _ => 0, fun _ => 0, fun _ => 0⟩

/-- The 10-byte buffer of all letter A bytes from spec scenario 1. -/
def bufAAAA : Nat → Nat := fun _ => 65

/-- Precomputed hash code of the 3-byte window at position 0 of `bufAAAA`. -/
def nhA0 : Nat :=
  lz_hash (loaded_u32_to_u24 (load_u32_unaligned bufAAAA 0))
    HC_MATCHFINDER_HASH3_ORDER

/-- Precomputed hash code of the 4-byte window at position 0 of `bufAAAA`. -/
def nhA1 : Nat :=
  lz_hash (load_u32_unaligned bufAAAA 0) HC_MATCHFINDER_HASH4_ORDER

/-- The matchfinder state after a forward scan has inserted positions 0-3 of
`bufAAAA` into a freshly reset index. -/
def stAAAA : hc_matchfinder × Nat × Nat :=
  skipLoop bufAAAA (hc_matchfinder_init mfZero, nhA0, nhA1) 0 4

/-- C1, counterexample: with `nice_len = max_len = 4` and `max_depth = 1` (both
side conditions of the claim hold) but `best_len = 7 > max_len`, the search
returns `best_len = 7`, which exceeds `max_len = 4`: the claimed bound
`L ≤ max_len` fails without the extra hypothesis `best_len ≤ max_len`. -/
theorem C1_counterexample :
    (hc_matchfinder_longest_match (fun _ => 0) mfZero 0 7 4 4 1 0 0).len = 7 ∧
    ¬ (hc_matchfinder_longest_match (fun _ => 0) mfZero 0 7 4 4 1 0 0).len ≤ 4 := by
  decide

/-- C1, amended: for every call on a byte buffer with `nice_len ≤ max_len`,
`max_depth ≥ 1` and additionally `best_len ≤ max_len`, the returned length `L`
satisfies `L ≤ max_len`, and whenever `L` exceeds the supplied `best_len`, the
`L` bytes at the searched position equal the `L` bytes at `p - offset`. -/
theorem C1_bounded_length (buf : Nat → Nat) (mf : hc_matchfinder)
    (p bl ml nl md nh0 nh1 : Nat) (hb : ∀ i, buf i < 256) (hnm : nl ≤ ml)
    (hd : 1 ≤ md) (hbm : bl ≤ ml) :
    (hc_matchfinder_longest_match buf mf p bl ml nl md nh0 nh1).len ≤ ml ∧
    (bl < (hc_matchfinder_longest_match buf mf p bl ml nl md nh0 nh1).len →
      matchAt buf p
        (p - hc_matchfinder_offset p
          (hc_matchfinder_longest_match buf mf p bl ml nl md nh0 nh1))
        (hc_matchfinder_longest_match buf mf p bl ml nl md nh0 nh1).len) := by
  rcases lm_spec buf mf p bl ml nl md nh0 nh1 _ rfl with ⟨hl, hm⟩ |
    ⟨h1, h2, h3, hcase⟩
  · constructor
    · rw [hl]
      exact hbm
    · intro h
      rw [hl] at h
      omega
  · refine ⟨h2, fun _ => ?_⟩
    unfold hc_matchfinder_offset
    by_cases hmp :
        (hc_matchfinder_longest_match buf mf p bl ml nl md nh0 nh1).matchPos ≤ p
    · have heq : p - (p -
          (hc_matchfinder_longest_match buf mf p bl ml nl md nh0 nh1).matchPos) =
          (hc_matchfinder_longest_match buf mf p bl ml nl md nh0 nh1).matchPos := by
        omega
      rw [heq]
      rcases hcase with ⟨hl3, hpos, hu24⟩ | ⟨hge4, h4z, hchain, hu32, hlz⟩
      · rw [u24_of_u32 buf hb p] at hu24
        rw [hl3]
        exact load_u24_eq_bytes buf hb p _ hu24.symm
      · rw [hlz]
        exact lz_extend_matchAt buf p _ 4 ml (load_u32_eq_bytes buf hb p _ hu32.symm)
    · have heq : p -
          (hc_matchfinder_longest_match buf mf p bl ml nl md nh0 nh1).matchPos = 0 := by
        omega
      rw [heq, Nat.sub_zero]
      exact fun j hj => rfl

/-- C1, witness: the amended theorem applied to the all-A buffer with
`best_len = 0`, `max_len = nice_len = 6`, `max_depth = 1` at position 0. -/
theorem C1_witness :
    (hc_matchfinder_longest_match (fun _ => 65) mfZero 0 0 6 6 1 0 0).len ≤ 6 ∧
    (0 < (hc_matchfinder_longest_match (fun _ => 65) mfZero 0 0 6 6 1 0 0).len →
      matchAt (fun _ => 65) 0
        (0 - hc_matchfinder_offset 0
          (hc_matchfinder_longest_match (fun _ => 65) mfZero 0 0 6 6 1 0 0))
        (hc_matchfinder_longest_match (fun _ => 65) mfZero 0 0 6 6 1 0 0).len) :=
  C1_bounded_length (fun _ => 65) mfZero 0 0 6 6 1 0 0
    (fun _ => (by decide : (65 : Nat) < 256)) (by decide) (by decide) (by decide)

/-- C4, counterexample: a call with `max_len = 4 < 5` leaves the Match Index
completely unchanged, so the hash3 bucket still holds 0 rather than the
current position 1 — the claim that every call updates the index exactly once
fails for calls with fewer than 5 bytes of lookahead. -/
theorem C4_counterexample :
    (hc_matchfinder_longest_match (fun _ => 0) mfZero 1 0 4 4 1 0 0).mf = mfZero ∧
    mfZero.hash3_tab 0 = 0 ∧ (0 : Nat) ≠ 1 :=
  ⟨rfl, rfl, by decide⟩

/-- C4, amended: every call with `max_len ≥ 5` updates the Match Index with
the current position's entry exactly once (hash3 bucket overwritten with `p`,
hash4 bucket overwritten with `p`, and the chain link of `p` set to the
previous hash4 head), regardless of whether a match is found; a call with
`max_len < 5` performs no update at all. -/
theorem C4_update_once (buf : Nat → Nat) (mf : hc_matchfinder)
    (p bl ml nl md nh0 nh1 : Nat) :
    (hc_matchfinder_longest_match buf mf p bl ml nl md nh0 nh1).mf =
      if ml < 5 then mf
      else ⟨upd mf.hash3_tab nh0 p, upd mf.hash4_tab nh1 p,
        upd mf.next_tab p (mf.hash4_tab nh1)⟩ := by
  by_cases h5 : ml < 5
  · rw [lm_small buf mf p bl ml nl md nh0 nh1 h5, if_pos h5]
  · have h := congrArg Prod.fst (lm_state buf mf p bl ml nl md nh0 nh1)
    rw [if_neg h5] at h
    rw [if_neg h5]
    dsimp only at h
    rw [h, skipStep_mf]

/-- C8: whenever the search returns a length strictly greater than the
supplied `best_len`, the reported match position is nonzero — a prior
occurrence starting at buffer position 0 is never reported, because 0 doubles
as the empty sentinel of the hash buckets and chain links and every candidate
is checked against 0 before being dereferenced. -/
theorem C8_position_zero_sentinel (buf : Nat → Nat) (mf : hc_matchfinder)
    (p bl ml nl md nh0 nh1 : Nat)
    (himp : bl < (hc_matchfinder_longest_match buf mf p bl ml nl md nh0 nh1).len) :
    (hc_matchfinder_longest_match buf mf p bl ml nl md nh0 nh1).matchPos ≠ 0 := by
  rcases lm_spec buf mf p bl ml nl md nh0 nh1 _ rfl with ⟨hl, _⟩ | ⟨_, _, hne, _⟩
  · omega
  · exact hne

/-- C8, witness: on the all-A buffer with positions 0-3 inserted, the search
at position 4 improves on `best_len = 0`, and its match position is nonzero. -/
theorem C8_witness :
    0 < (hc_matchfinder_longest_match bufAAAA stAAAA.1 4 0 6 6 4
      stAAAA.2.1 stAAAA.2.2).len ∧
    (hc_matchfinder_longest_match bufAAAA stAAAA.1 4 0 6 6 4
      stAAAA.2.1 stAAAA.2.2).matchPos ≠ 0 :=
  ⟨by decide, C8_position_zero_sentinel bufAAAA stAAAA.1 4 0 6 6 4
    stAAAA.2.1 stAAAA.2.2 (by decide)⟩

/-- C9, counterexample: `hc_matchfinder_init` is `memset(mf, 0, sizeof(*mf))`,
and the flexible array member `next_tab` lies outside `sizeof(*mf)`: a
chain-link slot holding 7 before the reset still holds 7 afterwards, so the
claim that every chain-link slot is cleared fails. -/
theorem C9_counterexample :
    (hc_matchfinder_init ⟨fun _ => 7, fun _ => 7, fun _ => 7⟩).next_tab 0 = 7 ∧
    (7 : Nat) ≠ 0 :=
  ⟨rfl, by decide⟩

/-- C9, amended: resetting the Match Index clears every short-table bucket and
every long-table bucket head to the sentinel 0, while every chain-link slot is
left exactly as it was (chain links are only ever read after being written for
the position in question). -/
theorem C9_init_clears_hash_tables (mf : hc_matchfinder) (h i : Nat) :
    (hc_matchfinder_init mf).hash3_tab h = 0 ∧
    (hc_matchfinder_init mf).hash4_tab h = 0 ∧
    (hc_matchfinder_init mf).next_tab i = mf.next_tab i :=
  ⟨rfl, rfl, rfl⟩

/-- C2: in every state reachable by Search and Skip-Forward-Insert calls at
strictly increasing positions, no chain hanging off a long-match bucket head
contains a position at or beyond the position `p` currently being searched,
and consequently every match the search reports at `p` (a strict improvement
over `best_len`) has its match position strictly below `p`. -/
theorem C2_causality (buf : Nat → Nat) (s : hc_matchfinder × Nat × Nat)
    (B p hIdx m bl ml nl md H0 H1 : Nat) (hr : Reach buf s B) (hp : B ≤ p) :
    (chainMem s.1.next_tab (s.1.hash4_tab hIdx) m → m < p) ∧
    (bl < (hc_matchfinder_longest_match buf s.1 p bl ml nl md H0 H1).len →
      (hc_matchfinder_longest_match buf s.1 p bl ml nl md H0 H1).matchPos < p) := by
  obtain ⟨h1, h2, h3⟩ := reach_inv buf s B hr
  constructor
  · rintro ⟨hhd, hchain⟩
    have hg := h3 hIdx
    have hle := goodChain_inChain _ _ _ hg hchain
    rcases h2 hIdx with hz | hlt
    · exact absurd hz hhd
    · omega
  · intro himp
    rcases lm_spec buf s.1 p bl ml nl md H0 H1 _ rfl with ⟨hl, _⟩ |
      ⟨hgt, _, hne, hcase⟩
    · omega
    · rcases hcase with ⟨_, hpos, _⟩ | ⟨_, h4z, hchain, _, _⟩
      · rcases h1 H0 with hz | hlt
        · rw [hpos] at hne
          exact absurd hz hne
        · rw [hpos]
          omega
      · rcases h2 H1 with hz | hlt
        · exact absurd hz h4z
        · have hg : GoodChain (upd s.1.next_tab p (s.1.hash4_tab H1))
              (s.1.hash4_tab H1) :=
            goodChain_upd _ p _ _ (h3 H1) (by omega)
          have hle := goodChain_inChain _ _ _ hg hchain
          omega

/-- C2, witness: the theorem applied to the state reached by skipping
positions 0-3 of the all-A buffer and searching at position 4. -/
theorem C2_witness :
    (chainMem stAAAA.1.next_tab (stAAAA.1.hash4_tab nhA1) 2 → 2 < 4) ∧
    (0 < (hc_matchfinder_longest_match bufAAAA stAAAA.1 4 0 6 6 4
      stAAAA.2.1 stAAAA.2.2).len →
      (hc_matchfinder_longest_match bufAAAA stAAAA.1 4 0 6 6 4
        stAAAA.2.1 stAAAA.2.2).matchPos < 4) :=
  C2_causality bufAAAA stAAAA (0 + 4) 4 nhA1 2 0 6 6 4 stAAAA.2.1 stAAAA.2.2
    (Reach.skip (hc_matchfinder_init mfZero, nhA0, nhA1) 0 0 10 4 stAAAA
      (Reach.init mfZero nhA0 nhA1) (Nat.le_refl 0) (by decide) rfl)
    (by decide)

/-- C3: in every state reachable from a freshly reset Match Index by Search
and Skip-Forward-Insert calls at strictly increasing positions, walking any
long-match bucket's chain from its head via the chain-link table visits
strictly decreasing positions, and iterating the link step from the head
reaches the sentinel 0 within head-many steps. -/
theorem C3_chain_order (buf : Nat → Nat) (s : hc_matchfinder × Nat × Nat)
    (B hIdx fuel : Nat) (hr : Reach buf s B) :
    List.Chain' (fun x y => y < x)
      (chainFrom s.1.next_tab fuel (s.1.hash4_tab hIdx)) ∧
    (chainStep s.1.next_tab)^[s.1.hash4_tab hIdx] (s.1.hash4_tab hIdx) = 0 := by
  obtain ⟨h1, h2, h3⟩ := reach_inv buf s B hr
  exact ⟨goodChain_chainFrom s.1.next_tab fuel _ (h3 hIdx),
    goodChain_iter s.1.next_tab _ _ (h3 hIdx) (le_refl _)⟩

/-- C3, witness: the theorem applied to the state reached by skipping
positions 0-3 of the all-A buffer, at the bucket of the all-A window. -/
theorem C3_witness :
    List.Chain' (fun x y => y < x)
      (chainFrom stAAAA.1.next_tab 5 (stAAAA.1.hash4_tab nhA1)) ∧
    (chainStep stAAAA.1.next_tab)^[stAAAA.1.hash4_tab nhA1]
      (stAAAA.1.hash4_tab nhA1) = 0 :=
  C3_chain_order bufAAAA stAAAA (0 + 4) nhA1 5
    (Reach.skip (hc_matchfinder_init mfZero, nhA0, nhA1) 0 0 10 4 stAAAA
      (Reach.init mfZero nhA0 nhA1) (Nat.le_refl 0) (by decide) rfl)

/-- C5: for every buffer, start position and `count ≥ 1`, Skip-Forward Insert
succeeds, and for every sequence of subsequent Search calls at positions at or
beyond `p + count` whose `max_len` is clamped to the remaining buffer length
(the caller contract), the (length, offset) outputs are identical whether the
history inserted the range by one skip call or by `count` individual
single-position insertions as done by Search's step 3. -/
theorem C5_skip_search_equiv (buf : Nat → Nat) (mf : hc_matchfinder)
    (nh0 nh1 p end_pos c : Nat) (qs : List SearchCall) (hc : 1 ≤ c)
    (hqs : ∀ e ∈ qs, p + c ≤ e.pos ∧ e.max_len ≤ end_pos - e.pos) :
    ∃ s', hc_matchfinder_skip_positions buf mf p end_pos c nh0 nh1 = some s' ∧
      runSearches buf s' qs =
        runSearches buf (insertRun buf end_pos (mf, nh0, nh1) p c) qs := by
  by_cases hg : c + 5 ≤ end_pos - p
  · refine ⟨skipLoop buf (mf, nh0, nh1) p c, ?_, ?_⟩
    · unfold hc_matchfinder_skip_positions
      rw [if_pos hg, if_neg (by omega : ¬ c = 0)]
    · rw [skipLoop_eq_insertRun buf end_pos c p (mf, nh0, nh1)
        (fun k hk => by omega)]
  · refine ⟨(mf, nh0, nh1), ?_, ?_⟩
    · unfold hc_matchfinder_skip_positions
      rw [if_neg hg]
    · refine runSearches_small buf qs (fun e he => ?_) _ _
      obtain ⟨hq1, hq2⟩ := hqs e he
      omega

/-- The 10-byte buffer of distinct letters from spec scenario 4. -/
def bufAJ : Nat → Nat := fun i => [65, 66, 67, 68, 69, 70, 71, 72, 73, 74].getD i 0

/-- Precomputed hash code of the 3-byte window at position 0 of `bufAJ`. -/
def nhJ0 : Nat :=
  lz_hash (loaded_u32_to_u24 (load_u32_unaligned bufAJ 0))
    HC_MATCHFINDER_HASH3_ORDER

/-- Precomputed hash code of the 4-byte window at position 0 of `bufAJ`. -/
def nhJ1 : Nat :=
  lz_hash (load_u32_unaligned bufAJ 0) HC_MATCHFINDER_HASH4_ORDER

/-- C5, witness: spec scenario 4 — skip 3 positions over the distinct-letter
buffer, then search at position 3; the skip history and the
individual-insertion history give the same search outputs. -/
theorem C5_witness :
    ∃ s', hc_matchfinder_skip_positions bufAJ (hc_matchfinder_init mfZero)
        0 10 3 nhJ0 nhJ1 = some s' ∧
      runSearches bufAJ s' [⟨3, 0, 5, 5, 4⟩] =
        runSearches bufAJ
          (insertRun bufAJ 10 (hc_matchfinder_init mfZero, nhJ0, nhJ1) 0 3)
          [⟨3, 0, 5, 5, 4⟩] :=
  C5_skip_search_equiv bufAJ (hc_matchfinder_init mfZero) nhJ0 nhJ1 0 10 3
    [⟨3, 0, 5, 5, 4⟩] (by decide) (by decide)

/-- C6, counterexample: skipping 7 positions starting at 1 over an 11-byte
buffer fails the whole-range guard (7 + 5 > 11 - 1), so the call updates
nothing at all: the state comes back unchanged and the long-match bucket of
position 1's window is still empty, even though position 1 has 10 ≥ 5 bytes of
lookahead and the claim says it would still be inserted. -/
theorem C6_counterexample :
    hc_matchfinder_skip_positions (fun _ => 65) mfZero 1 11 7 0 0 =
      some (mfZero, 0, 0) ∧
    5 ≤ 11 - 1 ∧
    mfZero.hash4_tab (lz_hash (load_u32_unaligned (fun _ => 65) 1)
      HC_MATCHFINDER_HASH4_ORDER) = 0 ∧
    (1 : Nat) ≠ 0 :=
  ⟨rfl, by decide, rfl, by decide⟩

/-- C6, amended: Skip-Forward Insert is all-or-nothing — when the whole range
passes the lookahead guard `count + 5 ≤ end_pos - cur_pos`, every one of the
`count` positions is inserted exactly as an individual single-position
insertion would insert it; when the guard fails, no position of the range is
inserted at all, not even those with at least 5 bytes of lookahead. -/
theorem C6_skip_boundary (buf : Nat → Nat) (mf : hc_matchfinder)
    (p end_pos c nh0 nh1 : Nat) (hc : 1 ≤ c) :
    hc_matchfinder_skip_positions buf mf p end_pos c nh0 nh1 =
      some (if c + 5 ≤ end_pos - p
        then insertRun buf end_pos (mf, nh0, nh1) p c
        else (mf, nh0, nh1)) := by
  unfold hc_matchfinder_skip_positions
  by_cases hg : c + 5 ≤ end_pos - p
  · rw [if_pos hg, if_pos hg, if_neg (by omega : ¬ c = 0),
      skipLoop_eq_insertRun buf end_pos c p (mf, nh0, nh1) (fun k hk => by omega)]
  · rw [if_neg hg, if_neg hg]

/-- C6, witness: the amended theorem at the counterexample's input. -/
theorem C6_witness :
    hc_matchfinder_skip_positions (fun _ => 65) mfZero 1 11 7 0 0 =
      some (if 7 + 5 ≤ 11 - 1
        then insertRun (fun _ => 65) 11 (mfZero, 0, 0) 1 7
        else (mfZero, 0, 0)) :=
  C6_skip_boundary (fun _ => 65) mfZero 1 11 7 0 0 (by decide)

/-- The 9-byte buffer of spec scenario 3 (bytes of the string of letters
A B C X A B C Y Z). -/
def bufABC : Nat → Nat := fun i => [65, 66, 67, 88, 65, 66, 67, 89, 90].getD i 0

/-- Precomputed hash code of the 3-byte window at position 0 of `bufABC`. -/
def nhC0 : Nat :=
  lz_hash (loaded_u32_to_u24 (load_u32_unaligned bufABC 0))
    HC_MATCHFINDER_HASH3_ORDER

/-- Precomputed hash code of the 4-byte window at position 0 of `bufABC`. -/
def nhC1 : Nat :=
  lz_hash (load_u32_unaligned bufABC 0) HC_MATCHFINDER_HASH4_ORDER

/-- The matchfinder state after the forward scan has inserted positions 0-3 of
`bufABC` into a freshly reset index. -/
def stABC : hc_matchfinder × Nat × Nat :=
  skipLoop bufABC (hc_matchfinder_init mfZero, nhC0, nhC1) 0 4

/-- C7, counterexample: on the scenario-3 buffer with positions 0-3 inserted,
the search at position 4 does not return length 3 and offset 4: the only prior
occurrence of the 3-byte window starts at position 0, and inserting position 0
wrote the value 0 — the empty sentinel — into its bucket, so the bucket reads
back as empty and the search gives up immediately. -/
theorem C7_counterexample :
    ¬ ((hc_matchfinder_longest_match bufABC stABC.1 4 0 5 5 4
        stABC.2.1 stABC.2.2).len = 3 ∧
      hc_matchfinder_offset 4 (hc_matchfinder_longest_match bufABC stABC.1 4 0 5 5 4
        stABC.2.1 stABC.2.2) = 4) := by
  decide

/-- C7, amended: on the scenario-3 buffer with positions 0-3 inserted by the
forward scan, Search at position 4 with `best_len = 0`, `max_len = 5`,
`nice_len = 5`, `max_depth = 4` returns length 0 and offset 0 — the 3-byte
match against position 0 is invisible because 0 doubles as the empty
sentinel of the hash tables. -/
theorem C7_scenario3 :
    (hc_matchfinder_longest_match bufABC stABC.1 4 0 5 5 4
      stABC.2.1 stABC.2.2).len = 0 ∧
    hc_matchfinder_offset 4 (hc_matchfinder_longest_match bufABC stABC.1 4 0 5 5 4
      stABC.2.1 stABC.2.2) = 0 := by
  decide

/-- C10, counterexample: the implementation contains no assertion.  A search
with `max_depth = 0` does not fail fast: it returns a perfectly normal result
(length 6 at offset 1 on the all-A buffer, the depth counter having wrapped),
and a skip with `count = 0` and at least 5 bytes of lookahead never reaches
its loop exit test, modelled as divergence (`none`) rather than a panic. -/
theorem C10_counterexample :
    (hc_matchfinder_longest_match bufAAAA stAAAA.1 4 0 6 6 0
      stAAAA.2.1 stAAAA.2.2).len = 6 ∧
    hc_matchfinder_offset 4 (hc_matchfinder_longest_match bufAAAA stAAAA.1 4 0 6 6 0
      stAAAA.2.1 stAAAA.2.2) = 1 ∧
    hc_matchfinder_skip_positions bufAAAA mfZero 0 10 0 0 0 = none :=
  ⟨by decide, by decide, rfl⟩

/-- C10, amended: the implementation performs no precondition checks.  A
Search call with `max_depth = 0` behaves exactly like one with depth `2 ^ 32`
(the u32 counter wraps on `!--depth_remaining`) and returns normally, and a
Skip call with `count = 0` diverges when at least 5 bytes of lookahead remain
(the `do`-`while` can never re-reach `stop_ptr`) and otherwise returns with no
update; `nice_len > max_len` is likewise never detected. -/
theorem C10_no_precondition_checks (buf : Nat → Nat) (mf : hc_matchfinder)
    (p bl ml nl nh0 nh1 cur end_pos : Nat) :
    hc_matchfinder_longest_match buf mf p bl ml nl 0 nh0 nh1 =
      hc_matchfinder_longest_match buf mf p bl ml nl (2 ^ 32) nh0 nh1 ∧
    hc_matchfinder_skip_positions buf mf cur end_pos 0 nh0 nh1 =
      (if 5 ≤ end_pos - cur then none else some (mf, nh0, nh1)) := by
  constructor
  · have hd : depthInit 0 = depthInit (2 ^ 32) := by
      simp [depthInit]
    simp only [hc_matchfinder_longest_match, hd]
  · unfold hc_matchfinder_skip_positions
    by_cases hg : 5 ≤ end_pos - cur
    · rw [if_pos (show 0 + 5 ≤ end_pos - cur by omega), if_pos rfl, if_pos hg]
    · rw [if_neg (show ¬ 0 + 5 ≤ end_pos - cur by omega), if_neg hg]
